import Mathlib

/-!
# Verification of the TCC staged consolidation pipeline

This file gives a shallow embedding of the consolidation core of the TCC
repository (`backend.py`, with the older variant `maybev2v1.py` where it
differs) and proves properties of it.

A pandas `DataFrame` is modelled as a `Table`: a list of column names and a
list of rows, each row a positional list of cell values.  A cell value
(`Val`) is a string, an exact rational standing for a float, the missing
marker `NaN` (`vnull`), or the two IEEE infinities produced by division by
zero.  Using rationals instead of binary floats is exact on every input we
evaluate; no property below depends on float rounding.

Embedded operations (each is written against the cited source lines):
* `mergeE`        — `pd.DataFrame.merge(how='left', on='CodMunIBGE')`,
                    backend.py:201-203.  One output row per matching pair,
                    rows of the left frame with no match padded with `NaN`;
                    missing key column raises `KeyError`.
* `astypeStrKey`  — `transf_df['CodMunIBGE'].astype(str)`, backend.py:200.
* `reindex`       — `df.reindex(columns=order_set)`, backend.py:211.
* `sortByKey`     — `df.sort_values(by='CodMunIBGE')`, backend.py:212.
* `divFill`       — `Series.div(other, fill_value=0)`, backend.py:214-215:
                    a missing operand is replaced by 0 unless both are
                    missing; division of floats maps `p/0` to `inf`/`-inf`
                    (`NaN` for `0/0`) and raises `TypeError` on strings.
* `addStatusTable`— the `np.where` completeness flag, backend.py:216-220.
* `gold_finish`   — backend.py:185-241 (the whole body is wrapped in
                    `try/except` returning `None`); the descriptive-summary
                    print, parquet save and DuckDB write are I/O on the
                    already-computed frame and are outside the model.
* `gold_finish_maybe` — maybev2v1.py:155-235: same merge loop, then
                    `dropna()`, reindex, sort, ratio; **no** `try/except`
                    and no `data_status` column.
* `process_data`  — backend.py:243-273, with the fetch and the silver
                    transform passed in as oracles (they are network /
                    provider calls, opaque to this core).
* `main_finalize` — the `if processor.join_list:` guard of `main`,
                    backend.py:497-498.
* `silver_transform_pib` / `silver_transform_pib_maybe` — the value
                    transformation of the GDP branch of `silver_transform`,
                    backend.py:156-157 (`astype(float) * 1000` then
                    `.round(3)`) versus maybev2v1.py:131-132
                    (`astype(float).round(3) * 1000`); pandas `round` is
                    round-half-to-even.
-/

/-- A cell value of a data frame: a string, a numeric value (exact rational
for a pandas float), the missing marker `NaN`, or an IEEE infinity. -/
inductive Val where
  | vstr (s : String)
  | vnum (q : ℚ)
  | vnull
  | vinf
  | vneginf
deriving DecidableEq, Repr

/-- A row is the list of cell values, positionally aligned with the table's
column names. -/
abbrev Row := List Val

/-- A data frame: named columns and positional rows. -/
structure Table where
  cols : List String
  rows : List Row
deriving DecidableEq, Repr

/-- The municipality-code join key, `'CodMunIBGE'` in both source files. -/
def key : String := "CodMunIBGE"

/-- First index of a column label, `none` when the label is absent. -/
def colIdx : List String → String → Option Nat
  | [], _ => none
  | c :: cs, d => if c = d then some 0 else (colIdx cs d).map (· + 1)

/-- Value of column `c` in row `r` of a frame with columns `cols`; `NaN`
when the column is absent (this is only exercised after `reindex`, which is
exactly pandas' fill behaviour there). -/
def getCell (cols : List String) (r : Row) (c : String) : Val :=
  match colIdx cols c with
  | some i => r.getD i Val.vnull
  | none => Val.vnull

/-- `str(x)` as applied by `Series.astype(str)` elementwise. -/
def valToStr : Val → Val
  | .vstr s => .vstr s
  | .vnum q => .vstr (toString q)
  | .vnull => .vstr "nan"
  | .vinf => .vstr "inf"
  | .vneginf => .vstr "-inf"

/-- `transf_df['CodMunIBGE'] = transf_df['CodMunIBGE'].astype(str)`
(backend.py:200), as a total function; the fallible wrapper is
`astypeStrKey`. -/
def astyped (t : Table) : Table :=
  match colIdx t.cols key with
  | some i => { t with rows := t.rows.map (fun r => r.set i (valToStr (r.getD i Val.vnull))) }
  | none => t

/-- backend.py:200; reading a missing column raises `KeyError`. -/
def astypeStrKey (t : Table) : Except String Table :=
  match colIdx t.cols key with
  | some _ => .ok (astyped t)
  | none => .error "KeyError: CodMunIBGE"

/-- `left.merge(right, how='left', on='CodMunIBGE')` (backend.py:201-203).
Output columns are the left columns followed by the right columns minus the
key; each left row yields one output row per matching right row, or a
`NaN`-padded row when there is no match; raises `KeyError` when either
frame lacks the key column. -/
def mergeE (left right : Table) : Except String Table :=
  match colIdx left.cols key, colIdx right.cols key with
  | some li, some ri =>
    .ok { cols := left.cols ++ right.cols.eraseIdx ri
        , rows := (left.rows.map (fun lr =>
            match right.rows.filter (fun m => m.getD ri Val.vnull == lr.getD li Val.vnull) with
            | [] => [lr ++ (right.cols.eraseIdx ri).map (fun _ => Val.vnull)]
            | ms => ms.map (fun m => lr ++ m.eraseIdx ri))).flatten }
  | _, _ => .error "KeyError: CodMunIBGE"

/-- The `for transf_df in self.join_list[1:]` loop of `gold_finish`
(backend.py:198-203): coerce each later table's key to string, then
left-merge it into the accumulated frame. -/
def mergeFold (acc : Table) : List Table → Except String Table
  | [] => .ok acc
  | u :: us =>
    match astypeStrKey u with
    | .error e => .error e
    | .ok u' =>
      match mergeE acc u' with
      | .error e => .error e
      | .ok m => mergeFold m us

/-- The declared output schema `order_set` (backend.py:204-210). -/
def order_set : List String :=
  ["CodMunIBGE", "Município", "Habitantes 2010", "IDHM 2010",
   "Receitas Correntes 2010 (R$)", "PIB 2010 (R$)",
   "Carga Tributária Municipal 2010"]

def recCol : String := "Receitas Correntes 2010 (R$)"
def pibCol : String := "PIB 2010 (R$)"
def idhmCol : String := "IDHM 2010"
def cargaCol : String := "Carga Tributária Municipal 2010"
def popCol : String := "Habitantes 2010"

/-- `df.reindex(columns=cs)` (backend.py:211): keep the listed columns in
the given order, filling columns absent from the frame with `NaN`. -/
def reindex (cs : List String) (t : Table) : Table :=
  { cols := cs, rows := t.rows.map (fun r => cs.map (fun c => getCell t.cols r c)) }

/-- Lexicographic `≤` on character lists, by structural recursion. -/
def charsLe : List Char → List Char → Bool
  | [], _ => true
  | _ :: _, [] => false
  | a :: as, b :: bs => if a < b then true else if b < a then false else charsLe as bs

/-- Lexicographic `≤` on strings (the order pandas sorts string keys by). -/
def strLeB (s t : String) : Bool := charsLe s.data t.data

/-- Sort class of a cell: `-inf` below all numbers, `inf` above, `NaN`
last (`na_position='last'`); strings only ever compare with strings in
this pipeline. -/
def valRank : Val → Nat
  | .vstr _ => 0
  | .vneginf => 1
  | .vnum _ => 2
  | .vinf => 3
  | .vnull => 4

/-- Comparison used by `sort_values`: lexicographic on strings, numeric on
numbers, `NaN` sorted last. -/
def valLe (a b : Val) : Bool :=
  match a, b with
  | .vstr s, .vstr t => strLeB s t
  | .vnum p, .vnum q => decide (p ≤ q)
  | _, _ => decide (valRank a ≤ valRank b)

/-- Row comparison by the key cell, for `sort_values(by='CodMunIBGE')`. -/
def rowLe (cols : List String) (a b : Row) : Prop :=
  valLe (getCell cols a key) (getCell cols b key) = true

instance rowLe.instDecidableRel (cols : List String) : DecidableRel (rowLe cols) :=
  fun _ _ => instDecidableEqBool _ _

/-- `df.sort_values(by='CodMunIBGE')` (backend.py:212-213): a deterministic
comparison sort of the rows by the key cell. -/
def sortByKey (t : Table) : Table :=
  { t with rows := t.rows.insertionSort (rowLe t.cols) }

/-- `fill_value = 0`: a missing operand of `Series.div` is replaced by 0
(unless both are missing). -/
def fillZero : Val → Val
  | .vnull => .vnum 0
  | v => v

/-- Float division after filling: `p/q` exactly when `q ≠ 0`, the IEEE
values `inf`/`-inf`/`NaN` when `q = 0`; a string operand raises
`TypeError`. -/
def divVals : Val → Val → Except String Val
  | .vnum p, .vnum q =>
    .ok (if q = 0 then (if 0 < p then .vinf else if p < 0 then .vneginf else .vnull)
         else .vnum (p / q))
  | _, _ => .error "TypeError: unsupported operand"

/-- `Series.div(other, fill_value=0)` elementwise (backend.py:214-215):
both operands missing gives `NaN`; otherwise missing operands are filled
with 0 and the floats divided. -/
def divFill (a b : Val) : Except String Val :=
  match a, b with
  | .vnull, .vnull => .ok .vnull
  | a, b => divVals (fillZero a) (fillZero b)

/-- The ratio column values, one per row, from that row's revenue and GDP
cells. -/
def cargaVals (cols : List String) : List Row → Except String (List Val)
  | [] => .ok []
  | r :: rs =>
    match divFill (getCell cols r recCol) (getCell cols r pibCol), cargaVals cols rs with
    | .ok v, .ok vs => .ok (v :: vs)
    | .error e, _ => .error e
    | .ok _, .error e => .error e

/-- `df[c] = vals`: overwrite the column when present, append it
otherwise. -/
def assignColumn (t : Table) (c : String) (vals : List Val) : Table :=
  match colIdx t.cols c with
  | some i => { t with rows := List.zipWith (fun r v => r.set i v) t.rows vals }
  | none => { cols := t.cols ++ [c], rows := List.zipWith (fun r v => r ++ [v]) t.rows vals }

/-- `df['Carga ...'] = df['Receitas ...'].div(df['PIB ...'], fill_value=0)`
(backend.py:214-215). -/
def addCargaTable (t : Table) : Except String Table :=
  match cargaVals t.cols t.rows with
  | .error e => .error e
  | .ok vals => .ok (assignColumn t cargaCol vals)

/-- `pd.notnull` elementwise: false exactly on `NaN`. -/
def notnullB : Val → Bool
  | .vnull => false
  | _ => true

/-- `x != 0` elementwise; in pandas `NaN != 0`, `inf != 0` and any string
compare unequal to 0, so only the number 0 fails. -/
def neZeroB : Val → Bool
  | .vnum q => decide (q ≠ 0)
  | _ => true

/-- The `np.where` condition of backend.py:216-219: human-development, GDP
and revenue all non-null and non-zero. -/
def completeB (cols : List String) (r : Row) : Bool :=
  (notnullB (getCell cols r idhmCol) && neZeroB (getCell cols r idhmCol)) &&
  ((notnullB (getCell cols r pibCol) && neZeroB (getCell cols r pibCol)) &&
   (notnullB (getCell cols r recCol) && neZeroB (getCell cols r recCol)))

/-- `df['data_status'] = np.where(..., 'complete', 'incomplete')`
(backend.py:216-220). -/
def addStatusTable (t : Table) : Table :=
  assignColumn t "data_status"
    (t.rows.map (fun r =>
      Val.vstr (if completeB t.cols r then "complete" else "incomplete")))

/-- The body of backend.py's `gold_finish` (lines 197-238): anchor on the
first accumulated table (`join_list[0]`, empty list raises `IndexError`),
fold the left merges, reindex to `order_set`, sort by the key, derive the
ratio column, derive the completeness flag. -/
def goldBodyE : List Table → Except String Table
  | [] => .error "IndexError: list index out of range"
  | t1 :: rest =>
    match mergeFold t1 rest with
    | .error e => .error e
    | .ok merged =>
      match addCargaTable (sortByKey (reindex order_set merged)) with
      | .error e => .error e
      | .ok w => .ok (addStatusTable w)

/-- backend.py's `gold_finish`: the whole body runs inside `try/except`,
so any exception is logged and `None` is returned (backend.py:239-241). -/
def gold_finish (ts : List Table) : Option Table :=
  (goldBodyE ts).toOption

/-- `df.dropna()` (maybev2v1.py:181): drop every row containing a `NaN`. -/
def dropna (t : Table) : Table :=
  { t with rows := t.rows.filter (fun r => !r.contains Val.vnull) }

/-- maybev2v1.py's `gold_finish` (lines 155-235): same merge loop, then
`dropna`, reindex, sort and the ratio column; there is **no** `try/except`
around the body and no `data_status` column, so errors propagate to the
caller. -/
def gold_finish_maybe : List Table → Except String Table
  | [] => .error "IndexError: list index out of range"
  | t1 :: rest =>
    match mergeFold t1 rest with
    | .error e => .error e
    | .ok merged => addCargaTable (sortByKey (reindex order_set (dropna merged)))

/-- `process_data` (backend.py:262-271): run the fetch; if it returns data,
run the silver transform; if that also returns data, append the result to
`join_list`.  The fetch result and the transform are oracles standing for
the network calls. -/
def process_data (st : List Table) (bronze : Option Table)
    (silver : Table → Option Table) : List Table :=
  match bronze with
  | none => st
  | some b =>
    match silver b with
    | none => st
    | some s => st ++ [s]

/-- The series loop of `main` (backend.py:478-495): each configured series
is processed in order, threading the accumulator. -/
def runSeries (outcomes : List (Option Table × (Table → Option Table)))
    (init : List Table) : List Table :=
  outcomes.foldl (fun st o => process_data st o.1 o.2) init

/-- The `if processor.join_list:` guard of `main` (backend.py:497-498):
finalization runs only on a non-empty accumulator. -/
def main_finalize (finalizer : List Table → Option Table)
    (jl : List Table) : Option Table :=
  if jl.isEmpty then none else finalizer jl

/-- Round half to even (the rounding used by pandas/numpy `round`). -/
def roundHalfEven (q : ℚ) : ℤ :=
  if q - ⌊q⌋ < 1/2 then ⌊q⌋
  else if 1/2 < q - ⌊q⌋ then ⌊q⌋ + 1
  else if Even ⌊q⌋ then ⌊q⌋ else ⌊q⌋ + 1

/-- `Series.round(3)`: round to 3 decimal places, half to even. -/
def round3 (q : ℚ) : ℚ :=
  (roundHalfEven (q * 1000) : ℚ) / 1000

/-- The GDP value transformation of backend.py's `silver_transform`
(lines 156-157): `astype(float) * 1000`, then `.round(3)`. -/
def silver_transform_pib (v : ℚ) : ℚ :=
  round3 (v * 1000)

/-- The GDP value transformation of maybev2v1.py's `silver_transform`
(lines 131-132): `astype(float).round(3) * 1000` — the rounding is applied
*before* the rescaling. -/
def silver_transform_pib_maybe (v : ℚ) : ℚ :=
  round3 v * 1000

/-! ## Canonical description of the merged frame

`mergeFold` is proved below to produce, for each anchor row, the anchor
cells followed by, for each later table, the cells of its unique row
matching the anchor's key (or `NaN`s).  These definitions name that
canonical form. -/

/-- Index of the key column, defaulting to 0 (only used where the key is
known to be present). -/
def keyIdxD (t : Table) : Nat := (colIdx t.cols key).getD 0

/-- The non-key columns a merged-in table contributes to the unified
frame. -/
def tableContribCols (u : Table) : List String := u.cols.eraseIdx (keyIdxD u)

/-- The non-key cells the table `u` contributes for join-key value `k`:
the unique matching row's cells, or `NaN`s when no row of `u` has key
`k`. -/
def tableContrib (u : Table) (k : Val) : Row :=
  match u.rows.find? (fun m => m.getD (keyIdxD u) Val.vnull == k) with
  | some m => m.eraseIdx (keyIdxD u)
  | none => (tableContribCols u).map (fun _ => Val.vnull)

/-- The value column `c` receives for key `k` from a list of merged-in
tables: the contribution of the first table carrying column `c`, `NaN` if
none does. -/
def findContrib : List Table → Val → String → Val
  | [], _, _ => .vnull
  | u :: us, k, c =>
    match colIdx (tableContribCols (astyped u)) c with
    | some j => (tableContrib (astyped u) k).getD j Val.vnull
    | none => findContrib us k c

/-- Canonical cell value of the unified frame at column `c`, for the
anchor row `r`: the anchor's own cell when the anchor carries `c`,
otherwise the contribution of the first merged-in table carrying `c`
matched on `r`'s key. -/
def canonCell (t1 : Table) (rest : List Table) (r : Row) (c : String) : Val :=
  match colIdx t1.cols c with
  | some i => r.getD i Val.vnull
  | none => findContrib rest (r.getD (keyIdxD t1) Val.vnull) c

/-- Every row has as many cells as the frame has columns. -/
def Aligned (t : Table) : Prop := ∀ r ∈ t.rows, r.length = t.cols.length

/-- The key values of a merged-in table after its `astype(str)` coercion
are pairwise distinct. -/
def uniqKeys (u : Table) : Prop :=
  ((astyped u).rows.map (fun m => m.getD (keyIdxD u) Val.vnull)).Nodup

/-- The key-column values of the unified frame, in row order. -/
def keyList (t : Table) : List Val :=
  t.rows.map (fun r => getCell t.cols r key)

/-- Strict ascending lexicographic order between two key cells. -/
def vstrLt (a b : Val) : Prop :=
  ∃ s t : String, a = .vstr s ∧ b = .vstr t ∧ s < t

/-- `true` exactly on string cells. -/
def isStrB : Val → Bool
  | .vstr _ => true
  | _ => false

/-- `true` exactly on numeric cells. -/
def isNumB : Val → Bool
  | .vnum _ => true
  | _ => false

/-- A cell that is a number or missing (the only values revenue and GDP
columns take in this pipeline). -/
def numOrNull (v : Val) : Prop := v = Val.vnull ∨ ∃ q : ℚ, v = Val.vnum q

/-! ## Concrete tables used in witnesses and counterexamples. -/

def wMun : Table := ⟨[key, "Município"], [[.vstr "1", .vstr "A"]]⟩
def wIdhm : Table := ⟨[key, idhmCol], [[.vstr "1", .vnum 7]]⟩
def wPop : Table := ⟨[key, popCol], [[.vstr "1", .vnum 3]]⟩

/-- Right table with a duplicated municipality code. -/
def cexDupIdhm : Table := ⟨[key, idhmCol], [[.vstr "1", .vnum 7], [.vstr "1", .vnum 8]]⟩

/-- Anchor with revenue 10 and GDP 0 in its only row. -/
def cexZeroGdp : Table := ⟨[key, recCol, pibCol], [[.vstr "1", .vnum 10, .vnum 0]]⟩

/-- Population table whose only code is `"5938"`. -/
def wPop5938 : Table := ⟨[key, popCol], [[.vstr "5938", .vnum 100]]⟩

/-- GDP table that does not contain code `"5938"`. -/
def wGdpNo5938 : Table := ⟨[key, pibCol], [[.vstr "1", .vnum 7]]⟩

/-- A table with no municipality-code column at all. -/
def cexNoKey : Table := ⟨[pibCol], [[.vnum 7]]⟩

/-- Anchor with a numeric (non-string) municipality code. -/
def wNumKey : Table := ⟨[key, "Município"], [[.vnum 1, .vstr "A"]]⟩

/-- Anchor whose only row has null revenue and GDP. -/
def wNull : Table := ⟨[key, recCol, pibCol], [[.vstr "1", .vnull, .vnull]]⟩

/-- Unified table produced from `[cexZeroGdp]`: the zero GDP makes the
ratio `inf`, not 0. -/
def cexZeroGdpRes : Table :=
  ⟨order_set ++ ["data_status"],
   [[.vstr "1", .vnull, .vnull, .vnull, .vnum 10, .vnum 0, .vinf, .vstr "incomplete"]]⟩

/-- Unified table produced from `[wMun]`. -/
def wMunRes : Table :=
  ⟨order_set ++ ["data_status"],
   [[.vstr "1", .vstr "A", .vnull, .vnull, .vnull, .vnull, .vnull, .vstr "incomplete"]]⟩

/-- Unified table produced from `[wNull]`. -/
def wNullRes : Table :=
  ⟨order_set ++ ["data_status"],
   [[.vstr "1", .vnull, .vnull, .vnull, .vnull, .vnull, .vnull, .vstr "incomplete"]]⟩

/-- Unified table produced from `[wPop5938, wGdpNo5938]` by backend.py:
code `"5938"` retained, GDP null, population intact, `incomplete`. -/
def wC6Res : Table :=
  ⟨order_set ++ ["data_status"],
   [[.vstr "5938", .vnull, .vnum 100, .vnull, .vnull, .vnull, .vnull, .vstr "incomplete"]]⟩

/-- Unified table produced from `[wNumKey, wGdpNo5938]`: the numeric
anchor code matches nothing after the string coercion. -/
def wC10Res : Table :=
  ⟨order_set ++ ["data_status"],
   [[.vnum 1, .vstr "A", .vnull, .vnull, .vnull, .vnull, .vnull, .vstr "incomplete"]]⟩

/-- Unified table produced from `[wMun, wIdhm, wPop]` (in either order of
the two non-anchor tables). -/
def wC1Res : Table :=
  ⟨order_set ++ ["data_status"],
   [[.vstr "1", .vstr "A", .vnum 3, .vnum 7, .vnull, .vnull, .vnull, .vstr "incomplete"]]⟩

instance Aligned.instDecidable (t : Table) : Decidable (Aligned t) := by
  unfold Aligned
  infer_instance

instance uniqKeys.instDecidable (u : Table) : Decidable (uniqKeys u) := by
  unfold uniqKeys
  infer_instance

/-- Two merged-in tables with disjoint value columns. -/
def contribDisjoint (u v : Table) : Prop :=
  ∀ c, c ∈ tableContribCols (astyped u) → c ∉ tableContribCols (astyped v)

instance contribDisjoint.instDecidable (u v : Table) : Decidable (contribDisjoint u v) := by
  unfold contribDisjoint
  infer_instance

/-! ## Basic lemmas about column lookup and positional access -/

theorem colIdx_lt_length {cs : List String} {c : String} {i : Nat}
    (h : colIdx cs c = some i) : i < cs.length := by
  induction cs generalizing i with
  | nil => simp [colIdx] at h
  | cons a as ih =>
    by_cases hac : a = c
    · simp [colIdx, hac] at h
      subst h
      simp
    · simp [colIdx, hac] at h
      obtain ⟨j, hj, rfl⟩ := h
      have := ih hj
      simp only [List.length_cons]
      omega

theorem colIdx_getElem {cs : List String} {c : String} {i : Nat}
    (h : colIdx cs c = some i) : ∃ hlt : i < cs.length, cs[i] = c := by
  induction cs generalizing i with
  | nil => simp [colIdx] at h
  | cons a as ih =>
    by_cases hac : a = c
    · simp [colIdx, hac] at h
      subst h
      exact ⟨by simp, hac⟩
    · simp [colIdx, hac] at h
      obtain ⟨j, hj, rfl⟩ := h
      obtain ⟨hlt, hget⟩ := ih hj
      exact ⟨by simpa using Nat.succ_lt_succ hlt, by simpa using hget⟩

theorem colIdx_mem {cs : List String} {c : String}
    (h : c ∈ cs) : (colIdx cs c).isSome := by
  induction cs with
  | nil => simp at h
  | cons a as ih =>
    by_cases hac : a = c
    · simp [colIdx, hac]
    · have : c ∈ as := by
        rcases List.mem_cons.1 h with h' | h'
        · exact absurd h'.symm hac
        · exact h'
      have := ih this
      simp [colIdx, hac, Option.isSome_map]
      exact this

theorem colIdx_isSome_mem {cs : List String} {c : String}
    (h : (colIdx cs c).isSome) : c ∈ cs := by
  obtain ⟨i, hi⟩ := Option.isSome_iff_exists.1 h
  obtain ⟨hlt, hget⟩ := colIdx_getElem hi
  exact hget ▸ List.getElem_mem hlt

theorem colIdx_append_left {l1 l2 : List String} {c : String} {i : Nat}
    (h : colIdx l1 c = some i) : colIdx (l1 ++ l2) c = some i := by
  induction l1 generalizing i with
  | nil => simp [colIdx] at h
  | cons a as ih =>
    by_cases hac : a = c
    · simp [colIdx, hac] at h ⊢
      exact h
    · simp [colIdx, hac] at h ⊢
      obtain ⟨j, hj, rfl⟩ := h
      exact ⟨j, ih hj, rfl⟩

theorem colIdx_append_right {l1 : List String} (l2 : List String) {c : String}
    (h : colIdx l1 c = none) :
    colIdx (l1 ++ l2) c = (colIdx l2 c).map (· + l1.length) := by
  induction l1 with
  | nil => simp [colIdx]
  | cons a as ih =>
    by_cases hac : a = c
    · simp [colIdx, hac] at h
    · simp only [colIdx, hac, if_false] at h
      have h' : colIdx as c = none := by
        cases hcc : colIdx as c
        · rfl
        · rw [hcc] at h
          simp at h
      simp only [List.cons_append, colIdx, hac, if_false]
      rw [List.append_eq, ih h']
      cases colIdx l2 c with
      | none => rfl
      | some j =>
        simp [Function.comp, List.length_cons]
        omega

theorem getD_of_lt {r : Row} {i : Nat} (h : i < r.length) (d : Val) :
    r.getD i d = r[i] := by
  simp [List.getD_eq_getElem?_getD, List.getElem?_eq_getElem h]

theorem getD_map_cols {cs : List String} {f : String → Val} {i : Nat}
    (h : i < cs.length) (d : Val) : (cs.map f).getD i d = f cs[i] := by
  rw [getD_of_lt (by simpa using h)]
  simp

theorem getD_map_const {l : List String} {i : Nat} :
    (l.map (fun _ => Val.vnull)).getD i Val.vnull = Val.vnull := by
  by_cases h : i < l.length
  · rw [getD_of_lt (by simpa using h)]
    simp
  · rw [List.getD_eq_getElem?_getD, List.getElem?_eq_none (by simpa using Nat.le_of_not_lt h)]
    rfl

/-- Splitting a `getCell` across an aligned block decomposition. -/
theorem getCell_append {A B : List String} {ra rb : Row}
    (h : ra.length = A.length) (c : String) :
    getCell (A ++ B) (ra ++ rb) c =
      match colIdx A c with
      | some _ => getCell A ra c
      | none => getCell B rb c := by
  cases hA : colIdx A c with
  | some i =>
    have hi := colIdx_lt_length hA
    simp only [getCell, colIdx_append_left hA, hA]
    exact List.getD_append _ _ _ _ (h ▸ hi)
  | none =>
    simp only [getCell, colIdx_append_right B hA]
    cases hB : colIdx B c with
    | some j =>
      have hle : ra.length ≤ j + A.length := by omega
      simp only [Option.map]
      rw [List.getD_append_right _ _ _ _ hle, h]
      congr 1
      omega
    | none => simp [Option.map]

/-! ## The sort comparison is total and transitive -/

theorem charsLe_total (as bs : List Char) : charsLe as bs = true ∨ charsLe bs as = true := by
  induction as generalizing bs with
  | nil => left; rfl
  | cons a as ih =>
    cases bs with
    | nil => right; rfl
    | cons b bs =>
      rcases lt_trichotomy a b with h | h | h
      · left; simp [charsLe, h]
      · subst h
        rcases ih bs with h' | h'
        · left; simp [charsLe, lt_irrefl, h']
        · right; simp [charsLe, lt_irrefl, h']
      · right; simp [charsLe, h]

theorem charsLe_trans {as bs cs : List Char}
    (h1 : charsLe as bs = true) (h2 : charsLe bs cs = true) : charsLe as cs = true := by
  induction as generalizing bs cs with
  | nil => rfl
  | cons a as ih =>
    cases bs with
    | nil => simp [charsLe] at h1
    | cons b bs =>
      cases cs with
      | nil => simp [charsLe] at h2
      | cons c cs =>
        rcases lt_trichotomy a b with hab | hab | hab
        · rcases lt_trichotomy b c with hbc | hbc | hbc
          · simp [charsLe, lt_trans hab hbc]
          · subst hbc; simp [charsLe, hab]
          · rcases lt_trichotomy a c with hac | hac | hac
            · simp [charsLe, hac]
            · subst hac; simp [charsLe, hbc] at h2
              simp [charsLe, lt_asymm hbc] at h2
            · simp [charsLe, hbc, lt_asymm hbc] at h2
        · subst hab
          rcases lt_trichotomy a c with hac | hac | hac
          · simp [charsLe, hac]
          · subst hac
            simp [charsLe, lt_irrefl] at h1 h2 ⊢
            exact ih h1 h2
          · simp [charsLe, hac, lt_asymm hac] at h2
        · simp [charsLe, hab, lt_asymm hab] at h1

theorem valLe_total (a b : Val) : valLe a b = true ∨ valLe b a = true := by
  cases a <;> cases b <;> simp [valLe, valRank, strLeB]
  · exact charsLe_total _ _
  · exact le_total _ _

theorem valLe_trans {a b c : Val}
    (h1 : valLe a b = true) (h2 : valLe b c = true) : valLe a c = true := by
  cases a <;> cases b <;> cases c <;>
    simp_all [valLe, valRank, strLeB]
  · exact charsLe_trans h1 h2
  · exact le_trans h1 h2

theorem rowLe_total (cols : List String) (a b : Row) :
    rowLe cols a b ∨ rowLe cols b a := valLe_total _ _

theorem rowLe_trans (cols : List String) {a b c : Row}
    (h1 : rowLe cols a b) (h2 : rowLe cols b c) : rowLe cols a c :=
  valLe_trans h1 h2

/-! ## The merge loop produces the canonical frame -/

theorem flatten_singletons {α β : Type} {l : List α} {f : α → List β} {g : α → β}
    (h : ∀ x ∈ l, f x = [g x]) : (l.map f).flatten = l.map g := by
  induction l with
  | nil => rfl
  | cons a as ih =>
    simp only [List.map_cons, List.flatten_cons, h a (by simp)]
    rw [ih (fun x hx => h x (by simp [hx]))]
    rfl

theorem filter_key_nodup {α β : Type} [DecidableEq β] {l : List α} {f : α → β} {k : β}
    (h : (l.map f).Nodup) :
    l.filter (fun m => f m == k) =
      match l.find? (fun m => f m == k) with
      | some m => [m]
      | none => [] := by
  induction l with
  | nil => rfl
  | cons a as ih =>
    simp only [List.map_cons, List.nodup_cons] at h
    by_cases hak : f a = k
    · have hfilter : as.filter (fun m => f m == k) = [] := by
        apply List.filter_eq_nil_iff.2
        intro x hx
        simp only [beq_iff_eq]
        intro hxk
        exact h.1 (by exact List.mem_map.2 ⟨x, hx, by rw [hxk, hak]⟩)
      simp [List.filter_cons, List.find?_cons, hak, hfilter]
    · simp only [List.filter_cons, List.find?_cons]
      have : (f a == k) = false := by simp [hak]
      rw [this]
      simp only [Bool.false_eq_true, if_false, cond_false]
      exact ih h.2

theorem astyped_cols (t : Table) : (astyped t).cols = t.cols := by
  unfold astyped
  cases colIdx t.cols key <;> rfl

theorem astyped_aligned {t : Table} (h : Aligned t) : Aligned (astyped t) := by
  unfold astyped
  cases hc : colIdx t.cols key with
  | none => exact h
  | some i =>
    intro r hr
    simp only [List.mem_map] at hr
    obtain ⟨r0, hr0, rfl⟩ := hr
    simp [List.length_set, h r0 hr0]

theorem tableContribCols_astyped (u : Table) :
    tableContribCols (astyped u) = tableContribCols u := by
  unfold tableContribCols keyIdxD
  rw [astyped_cols]

theorem tableContrib_length {u : Table} {k : Val} {ri : Nat}
    (hr : colIdx u.cols key = some ri) (hal : Aligned u) :
    (tableContrib u k).length = (tableContribCols u).length := by
  have hri : keyIdxD u = ri := by simp [keyIdxD, hr]
  have hlt : ri < u.cols.length := colIdx_lt_length hr
  unfold tableContrib tableContribCols
  cases hf : u.rows.find? (fun m => m.getD (keyIdxD u) Val.vnull == k) with
  | none => simp
  | some m =>
    have hm : m ∈ u.rows := List.mem_of_find?_eq_some hf
    have hlen : m.length = u.cols.length := hal m hm
    simp [List.length_eraseIdx, hri, hlen, hlt]

/-- One merge step, on a right table with unique keys, extends every left
row by that table's contribution for the row's key. -/
theorem mergeE_ok {left right : Table} {li ri : Nat}
    (hl : colIdx left.cols key = some li)
    (hr : colIdx right.cols key = some ri)
    (hnod : (right.rows.map (fun m => m.getD ri Val.vnull)).Nodup) :
    mergeE left right =
      .ok { cols := left.cols ++ tableContribCols right
          , rows := left.rows.map (fun lr => lr ++ tableContrib right (lr.getD li Val.vnull)) } := by
  have hri : keyIdxD right = ri := by simp [keyIdxD, hr]
  have hcols : tableContribCols right = right.cols.eraseIdx ri := by
    unfold tableContribCols
    rw [hri]
  simp only [mergeE, hl, hr]
  rw [hcols]
  congr 2
  apply flatten_singletons
  intro lr _
  rw [filter_key_nodup hnod]
  cases hf : right.rows.find? (fun m => m.getD ri Val.vnull == lr.getD li Val.vnull) with
  | none =>
    simp only [tableContrib, hri, hf, hcols]
  | some m =>
    simp only [tableContrib, hri, hf, List.map_cons, List.map_nil]

/-- The whole merge loop, on well-keyed right tables with unique keys,
extends every anchor row by the contributions of the later tables in
order. -/
theorem mergeFold_ok {i1 : Nat} (rest : List Table) :
    ∀ (acc : Table), colIdx acc.cols key = some i1 → Aligned acc →
    (∀ u ∈ rest, (colIdx u.cols key).isSome) →
    (∀ u ∈ rest, Aligned u) →
    (∀ u ∈ rest, uniqKeys u) →
    mergeFold acc rest = .ok
      { cols := acc.cols ++ (rest.map (fun u => tableContribCols (astyped u))).flatten
      , rows := acc.rows.map (fun r =>
          r ++ (rest.map (fun u => tableContrib (astyped u) (r.getD i1 Val.vnull))).flatten) } := by
  induction rest with
  | nil =>
    intro acc _ _ _ _ _
    simp [mergeFold]
  | cons u us ih =>
    intro acc hk hal hkr halr hunq
    have hku : (colIdx u.cols key).isSome := hkr u (by simp)
    obtain ⟨ri, hri⟩ := Option.isSome_iff_exists.1 hku
    have hastep : astypeStrKey u = .ok (astyped u) := by
      unfold astypeStrKey
      rw [hri]
    have hra : colIdx (astyped u).cols key = some ri := by
      rw [astyped_cols]
      exact hri
    have hkeyIdx : keyIdxD u = ri := by simp [keyIdxD, hri]
    have hnod : ((astyped u).rows.map (fun m => m.getD ri Val.vnull)).Nodup := by
      have hu := hunq u (by simp)
      unfold uniqKeys at hu
      rwa [hkeyIdx] at hu
    have hmerge := mergeE_ok hk hra hnod
    set acc2 : Table :=
      { cols := acc.cols ++ tableContribCols (astyped u)
      , rows := acc.rows.map
          (fun lr => lr ++ tableContrib (astyped u) (lr.getD i1 Val.vnull)) } with hacc2
    have hstep : mergeFold acc (u :: us) = mergeFold acc2 us := by
      simp only [mergeFold, hastep, hmerge]
    rw [hstep]
    have hk2 : colIdx acc2.cols key = some i1 := colIdx_append_left hk
    have hal2 : Aligned acc2 := by
      intro r hr
      simp only [hacc2, List.mem_map] at hr
      obtain ⟨r0, hr0, rfl⟩ := hr
      have hlen0 := hal r0 hr0
      have hclen := tableContrib_length (k := r0.getD i1 Val.vnull) hra
        (astyped_aligned (halr u (by simp)))
      show (r0 ++ tableContrib (astyped u) (r0.getD i1 Val.vnull)).length
          = (acc.cols ++ tableContribCols (astyped u)).length
      rw [List.length_append, List.length_append, hlen0, hclen]
    rw [ih acc2 hk2 hal2 (fun v hv => hkr v (by simp [hv]))
      (fun v hv => halr v (by simp [hv])) (fun v hv => hunq v (by simp [hv]))]
    congr 1
    congr 1
    · simp [hacc2, List.append_assoc]
    · simp only [hacc2, List.map_map]
      apply List.map_congr_left
      intro r hrmem
      simp only [Function.comp]
      have hlen0 := hal r hrmem
      have hi1 : i1 < r.length := by
        rw [hlen0]
        exact colIdx_lt_length hk
      rw [List.getD_append _ _ _ _ hi1]
      simp [List.append_assoc]

theorem getD_set_self {l : Row} {i : Nat} {v d : Val} (h : i < l.length) :
    (l.set i v).getD i d = v := by
  rw [List.getD_eq_getElem?_getD, List.getElem?_set_self h]
  rfl

theorem getD_set_ne {l : Row} {i j : Nat} {v d : Val} (h : i ≠ j) :
    (l.set i v).getD j d = l.getD j d := by
  rw [List.getD_eq_getElem?_getD, List.getElem?_set_ne h, ← List.getD_eq_getElem?_getD]

/-- Looking a column up across the concatenated contribution blocks finds
the first contributing table's value. -/
theorem getCell_contribs (rest : List Table) (k : Val) (c : String)
    (hkr : ∀ u ∈ rest, (colIdx u.cols key).isSome)
    (halr : ∀ u ∈ rest, Aligned u) :
    getCell ((rest.map (fun u => tableContribCols (astyped u))).flatten)
            ((rest.map (fun u => tableContrib (astyped u) k)).flatten) c
      = findContrib rest k c := by
  induction rest with
  | nil => rfl
  | cons u us ih =>
    simp only [List.map_cons, List.flatten_cons]
    obtain ⟨ri, hri⟩ := Option.isSome_iff_exists.1 (hkr u (by simp))
    have hra : colIdx (astyped u).cols key = some ri := by
      rw [astyped_cols]
      exact hri
    have hlen : (tableContrib (astyped u) k).length = (tableContribCols (astyped u)).length :=
      tableContrib_length hra (astyped_aligned (halr u (by simp)))
    rw [getCell_append hlen]
    cases hc : colIdx (tableContribCols (astyped u)) c with
    | some j => simp only [findContrib, hc, getCell]
    | none =>
      simp only [findContrib, hc]
      exact ih (fun v hv => hkr v (by simp [hv])) (fun v hv => halr v (by simp [hv]))

/-- Each cell of a merged row is the canonical cell. -/
theorem getCell_bigRow {t1 : Table} {i1 : Nat} (rest : List Table) {r : Row} (c : String)
    (hk : colIdx t1.cols key = some i1)
    (hrlen : r.length = t1.cols.length)
    (hkr : ∀ u ∈ rest, (colIdx u.cols key).isSome)
    (halr : ∀ u ∈ rest, Aligned u) :
    getCell (t1.cols ++ (rest.map (fun u => tableContribCols (astyped u))).flatten)
            (r ++ (rest.map (fun u => tableContrib (astyped u) (r.getD i1 Val.vnull))).flatten) c
      = canonCell t1 rest r c := by
  rw [getCell_append hrlen]
  have hkeyIdx : keyIdxD t1 = i1 := by simp [keyIdxD, hk]
  unfold canonCell
  rw [hkeyIdx]
  cases hc : colIdx t1.cols c with
  | some i => simp only [getCell, hc]
  | none => exact getCell_contribs rest _ c hkr halr

/-- Reindexing the merged frame to the declared schema yields the
canonical unified rows. -/
theorem reindex_big {t1 : Table} {i1 : Nat} {rest : List Table}
    (hk : colIdx t1.cols key = some i1) (hal : Aligned t1)
    (hkr : ∀ u ∈ rest, (colIdx u.cols key).isSome)
    (halr : ∀ u ∈ rest, Aligned u) :
    reindex order_set
      { cols := t1.cols ++ (rest.map (fun u => tableContribCols (astyped u))).flatten
      , rows := t1.rows.map (fun r =>
          r ++ (rest.map (fun u => tableContrib (astyped u) (r.getD i1 Val.vnull))).flatten) }
    = { cols := order_set
      , rows := t1.rows.map (fun r => order_set.map (fun c => canonCell t1 rest r c)) } := by
  unfold reindex
  congr 1
  rw [List.map_map]
  apply List.map_congr_left
  intro r hr
  simp only [Function.comp]
  apply List.map_congr_left
  intro c _
  exact getCell_bigRow rest c hk (hal r hr) hkr halr

theorem contribDisjoint_symm {u v : Table} (h : contribDisjoint u v) :
    contribDisjoint v u := by
  intro c hcv hcu
  exact h c hcu hcv

/-- With pairwise-disjoint value columns, the contribution a column
receives does not depend on the order of the merged-in tables. -/
theorem findContrib_perm {rest rest' : List Table}
    (hperm : rest.Perm rest') (hdisj : rest.Pairwise contribDisjoint)
    (k : Val) (c : String) : findContrib rest k c = findContrib rest' k c := by
  induction hperm with
  | nil => rfl
  | cons u htail ih =>
    simp only [List.pairwise_cons] at hdisj
    simp only [findContrib]
    cases colIdx (tableContribCols (astyped u)) c with
    | some j => rfl
    | none => exact ih hdisj.2
  | swap u v l =>
    simp only [List.pairwise_cons] at hdisj
    have huv : contribDisjoint v u := hdisj.1 u (by simp)
    simp only [findContrib]
    cases hcv : colIdx (tableContribCols (astyped v)) c with
    | some j =>
      cases hcu : colIdx (tableContribCols (astyped u)) c with
      | some j' =>
        have hmemv : c ∈ tableContribCols (astyped v) :=
          colIdx_isSome_mem (by simp [hcv])
        have hmemu : c ∈ tableContribCols (astyped u) :=
          colIdx_isSome_mem (by simp [hcu])
        exact absurd hmemu (huv c hmemv)
      | none => rfl
    | none =>
      cases hcu : colIdx (tableContribCols (astyped u)) c with
      | some j' => rfl
      | none => rfl
  | trans h12 h23 ih12 ih23 =>
    rename_i l1 l2 l3
    have hd2 : l2.Pairwise contribDisjoint :=
      (List.Perm.pairwise_iff (fun hab => contribDisjoint_symm hab) h12).1 hdisj
    exact (ih12 hdisj).trans (ih23 hd2)

theorem cargaVals_ok {cols : List String} {rows : List Row} {vals : List Val}
    (h : cargaVals cols rows = .ok vals) :
    List.Forall₂ (fun r v =>
      divFill (getCell cols r recCol) (getCell cols r pibCol) = .ok v) rows vals := by
  induction rows generalizing vals with
  | nil =>
    unfold cargaVals at h
    injection h with h'
    subst h'
    exact List.Forall₂.nil
  | cons r rs ih =>
    unfold cargaVals at h
    cases hd : divFill (getCell cols r recCol) (getCell cols r pibCol) with
    | error e =>
      rw [hd] at h
      cases hrs : cargaVals cols rs <;> rw [hrs] at h <;> cases h
    | ok v =>
      rw [hd] at h
      cases hrs : cargaVals cols rs with
      | error e =>
        rw [hrs] at h
        cases h
      | ok vs =>
        rw [hrs] at h
        injection h with h'
        subst h'
        exact List.Forall₂.cons hd (ih hrs)

theorem mem_zipWith_forall₂ {α β γ : Type} {R : α → β → Prop} {f : α → β → γ}
    {l : List α} {v : List β} (h : List.Forall₂ R l v) {x : γ}
    (hx : x ∈ List.zipWith f l v) : ∃ a b, a ∈ l ∧ R a b ∧ x = f a b := by
  induction h with
  | nil => simp at hx
  | cons hab htail ih =>
    simp only [List.zipWith_cons_cons, List.mem_cons] at hx
    rcases hx with rfl | hx
    · exact ⟨_, _, by simp, hab, rfl⟩
    · obtain ⟨a, b, ha, hr, rfl⟩ := ih hx
      exact ⟨a, b, by simp [ha], hr, rfl⟩

theorem zipWith_mem_of_forall₂ {α β γ : Type} {R : α → β → Prop} {f : α → β → γ}
    {l : List α} {v : List β} (h : List.Forall₂ R l v) {a : α} (ha : a ∈ l) :
    ∃ b, R a b ∧ f a b ∈ List.zipWith f l v := by
  induction h with
  | nil => simp at ha
  | cons hab htail ih =>
    rcases List.mem_cons.1 ha with rfl | ha'
    · exact ⟨_, hab, by simp⟩
    · obtain ⟨b, hr, hm⟩ := ih ha'
      exact ⟨b, hr, by simp [hm]⟩

theorem zipWith_map_forall₂ {α β γ δ : Type} {R : α → β → Prop} {f : α → β → γ}
    {g : γ → δ} {g' : α → δ} {l : List α} {v : List β} (h : List.Forall₂ R l v)
    (hg : ∀ a b, R a b → g (f a b) = g' a) :
    (List.zipWith f l v).map g = l.map g' := by
  induction h with
  | nil => rfl
  | cons hab htail ih => simp [hg _ _ hab, ih]

theorem sortByKey_cols (t : Table) : (sortByKey t).cols = t.cols := rfl

theorem sortByKey_perm (t : Table) : (sortByKey t).rows.Perm t.rows :=
  List.perm_insertionSort _ _

/-- Appending the status column turns each row `w` into
`w ++ [status of w]`. -/
theorem addStatusTable_rows {t : Table} (h : colIdx t.cols "data_status" = none) :
    (addStatusTable t).cols = t.cols ++ ["data_status"] ∧
    (addStatusTable t).rows = t.rows.map (fun w =>
      w ++ [Val.vstr (if completeB t.cols w then "complete" else "incomplete")]) := by
  unfold addStatusTable assignColumn
  rw [h]
  refine ⟨rfl, ?_⟩
  rw [List.zipWith_map_right, List.zipWith_same]

/-- Decomposition of a successful `gold_finish` run into its stages. -/
theorem gold_decompose {t1 : Table} {rest : List Table} {res : Table}
    (h : goldBodyE (t1 :: rest) = .ok res) :
    ∃ merged vals,
      mergeFold t1 rest = .ok merged ∧
      cargaVals (sortByKey (reindex order_set merged)).cols
        (sortByKey (reindex order_set merged)).rows = .ok vals ∧
      res = addStatusTable
        (assignColumn (sortByKey (reindex order_set merged)) cargaCol vals) := by
  simp only [goldBodyE] at h
  cases hm : mergeFold t1 rest with
  | error e =>
    rw [hm] at h
    cases h
  | ok merged =>
    rw [hm] at h
    dsimp only at h
    cases hc : addCargaTable (sortByKey (reindex order_set merged)) with
    | error e =>
      rw [hc] at h
      cases h
    | ok w =>
      rw [hc] at h
      injection h with h'
      unfold addCargaTable at hc
      cases hv : cargaVals (sortByKey (reindex order_set merged)).cols
          (sortByKey (reindex order_set merged)).rows with
      | error e =>
        rw [hv] at hc
        cases hc
      | ok vals =>
        rw [hv] at hc
        injection hc with hc'
        exact ⟨merged, vals, rfl, hv, by rw [← h', ← hc']⟩

theorem gold_finish_eq_some {ts : List Table} {res : Table} :
    gold_finish ts = some res ↔ goldBodyE ts = .ok res := by
  unfold gold_finish
  cases goldBodyE ts <;> simp [Except.toOption]

/-- Every row of a finished unified table satisfies, in terms of its own
cells: the ratio column is the `fill_value=0` division of revenue by GDP,
and the status column is `complete`/`incomplete` according to the
`np.where` condition. -/
theorem gold_row_invariant {ts : List Table} {res : Table}
    (h : gold_finish ts = some res) :
    res.cols = order_set ++ ["data_status"] ∧
    ∀ x ∈ res.rows,
      divFill (getCell res.cols x recCol) (getCell res.cols x pibCol)
        = .ok (getCell res.cols x cargaCol) ∧
      getCell res.cols x "data_status"
        = Val.vstr (if completeB res.cols x then "complete" else "incomplete") := by
  rw [gold_finish_eq_some] at h
  cases ts with
  | nil => cases h
  | cons t1 rest =>
    obtain ⟨merged, vals, hm, hv, hres⟩ := gold_decompose h
    set S : Table := sortByKey (reindex order_set merged) with hS
    have hforall := cargaVals_ok hv
    have hlen7 : ∀ w ∈ S.rows, w.length = 7 := by
      intro w hw
      have hw' : w ∈ (reindex order_set merged).rows := (sortByKey_perm _).mem_iff.1 hw
      simp only [reindex, List.mem_map] at hw'
      obtain ⟨r, _, rfl⟩ := hw'
      simp [order_set]
    have hWrows : (assignColumn S cargaCol vals).rows
        = List.zipWith (fun r v => r.set 6 v) S.rows vals := by
      simp only [assignColumn, show colIdx S.cols cargaCol = some 6 from rfl]
    have hWcols : (assignColumn S cargaCol vals).cols = order_set := by
      simp only [assignColumn, show colIdx S.cols cargaCol = some 6 from rfl]
      rfl
    have hds : colIdx (assignColumn S cargaCol vals).cols "data_status" = none := by
      rw [hWcols]
      rfl
    have hstat := addStatusTable_rows hds
    have hrescols : res.cols = order_set ++ ["data_status"] := by
      rw [hres, hstat.1, hWcols]
    refine ⟨hrescols, ?_⟩
    intro x hx
    rw [hres, hstat.2, hWrows] at hx
    simp only [List.mem_map] at hx
    obtain ⟨w', hw', rfl⟩ := hx
    obtain ⟨w, v, hwmem, hdiv, rfl⟩ := mem_zipWith_forall₂ hforall hw'
    have hw7 : w.length = 7 := hlen7 w hwmem
    have hw7' : (w.set 6 v).length = 7 := by simp [List.length_set, hw7]
    set st := Val.vstr
      (if completeB (assignColumn S cargaCol vals).cols (w.set 6 v)
       then "complete" else "incomplete") with hst
    -- cell computations on x = (w.set 6 v) ++ [st]
    have hcell : ∀ (c : String) (i : Nat), colIdx (order_set ++ ["data_status"]) c = some i →
        i < 7 → getCell res.cols ((w.set 6 v) ++ [st]) c = (w.set 6 v).getD i Val.vnull := by
      intro c i hci hi7
      rw [hrescols]
      simp only [getCell, hci]
      exact List.getD_append _ _ _ _ (by rw [hw7']; exact hi7)
    have hrec : getCell res.cols ((w.set 6 v) ++ [st]) recCol = w.getD 4 Val.vnull := by
      rw [hcell recCol 4 rfl (by norm_num)]
      exact getD_set_ne (by norm_num)
    have hpib : getCell res.cols ((w.set 6 v) ++ [st]) pibCol = w.getD 5 Val.vnull := by
      rw [hcell pibCol 5 rfl (by norm_num)]
      exact getD_set_ne (by norm_num)
    have hidhm : getCell res.cols ((w.set 6 v) ++ [st]) idhmCol = w.getD 3 Val.vnull := by
      rw [hcell idhmCol 3 rfl (by norm_num)]
      exact getD_set_ne (by norm_num)
    have hcarga : getCell res.cols ((w.set 6 v) ++ [st]) cargaCol = v := by
      rw [hcell cargaCol 6 rfl (by norm_num)]
      exact getD_set_self (by rw [hw7]; norm_num)
    have hstatus : getCell res.cols ((w.set 6 v) ++ [st]) "data_status" = st := by
      rw [hrescols]
      simp only [getCell, show colIdx (order_set ++ ["data_status"]) "data_status" = some 7 from rfl]
      rw [List.getD_append_right _ _ _ _ (by rw [hw7'])]
      rw [hw7']
      rfl
    constructor
    · rw [hrec, hpib, hcarga]
      have hrec' : getCell S.cols w recCol = w.getD 4 Val.vnull := rfl
      have hpib' : getCell S.cols w pibCol = w.getD 5 Val.vnull := rfl
      rw [hrec', hpib'] at hdiv
      exact hdiv
    · rw [hstatus, hst]
      congr 1
      have hcompl : completeB res.cols ((w.set 6 v) ++ [st]) =
          completeB (assignColumn S cargaCol vals).cols (w.set 6 v) := by
        unfold completeB
        rw [hWcols]
        rw [hidhm, hpib, hrec]
        have h3 : getCell order_set (w.set 6 v) idhmCol = w.getD 3 Val.vnull := by
          simp only [getCell, show colIdx order_set idhmCol = some 3 from rfl]
          exact getD_set_ne (by norm_num)
        have h4 : getCell order_set (w.set 6 v) recCol = w.getD 4 Val.vnull := by
          simp only [getCell, show colIdx order_set recCol = some 4 from rfl]
          exact getD_set_ne (by norm_num)
        have h5 : getCell order_set (w.set 6 v) pibCol = w.getD 5 Val.vnull := by
          simp only [getCell, show colIdx order_set pibCol = some 5 from rfl]
          exact getD_set_ne (by norm_num)
        rw [h3, h4, h5]
      rw [hcompl]

/-- Full decomposition of a successful finalization into stage artifacts. -/
theorem gold_stages {t1 : Table} {rest : List Table} {res : Table}
    (h : goldBodyE (t1 :: rest) = .ok res) :
    ∃ merged vals, mergeFold t1 rest = .ok merged ∧
      List.Forall₂ (fun r v =>
        divFill (getCell order_set r recCol) (getCell order_set r pibCol) = .ok v)
        (sortByKey (reindex order_set merged)).rows vals ∧
      res.cols = order_set ++ ["data_status"] ∧
      res.rows = (List.zipWith (fun r v => r.set 6 v)
          (sortByKey (reindex order_set merged)).rows vals).map
        (fun w => w ++ [Val.vstr (if completeB order_set w then "complete" else "incomplete")]) := by
  obtain ⟨merged, vals, hm, hv, hres⟩ := gold_decompose h
  set S : Table := sortByKey (reindex order_set merged) with hS
  have hforall := cargaVals_ok hv
  have hWrows : (assignColumn S cargaCol vals).rows
      = List.zipWith (fun r v => r.set 6 v) S.rows vals := by
    simp only [assignColumn, show colIdx S.cols cargaCol = some 6 from rfl]
  have hWcols : (assignColumn S cargaCol vals).cols = order_set := by
    simp only [assignColumn, show colIdx S.cols cargaCol = some 6 from rfl]
    rfl
  have hds : colIdx (assignColumn S cargaCol vals).cols "data_status" = none := by
    rw [hWcols]
    rfl
  have hstat := addStatusTable_rows hds
  refine ⟨merged, vals, hm, hforall, ?_, ?_⟩
  · rw [hres, hstat.1, hWcols]
  · rw [hres, hstat.2, hWrows, hWcols]

/-- The `astype(str)` coercion leaves every key cell a string. -/
theorem astyped_key_vstr {u : Table} {ri : Nat}
    (hri : colIdx u.cols key = some ri) (hal : Aligned u) :
    ∀ m ∈ (astyped u).rows, ∃ s, m.getD ri Val.vnull = Val.vstr s := by
  intro m hm
  unfold astyped at hm
  rw [hri] at hm
  simp only [List.mem_map] at hm
  obtain ⟨m0, hm0, rfl⟩ := hm
  have hlt : ri < m0.length := by
    rw [hal m0 hm0]
    exact colIdx_lt_length hri
  rw [getD_set_self hlt]
  cases m0.getD ri Val.vnull <;> exact ⟨_, rfl⟩

/-- A numeric anchor key matches no coerced (string) key, so every
contribution is null. -/
theorem findContrib_num (rest : List Table) (q : ℚ) (c : String)
    (hkr : ∀ u ∈ rest, (colIdx u.cols key).isSome)
    (halr : ∀ u ∈ rest, Aligned u) :
    findContrib rest (Val.vnum q) c = Val.vnull := by
  induction rest with
  | nil => rfl
  | cons u us ih =>
    obtain ⟨ri, hri⟩ := Option.isSome_iff_exists.1 (hkr u (by simp))
    have hvstr := astyped_key_vstr hri (halr u (by simp))
    have hkeyA : keyIdxD (astyped u) = ri := by
      simp [keyIdxD, astyped_cols, hri]
    have hfind : (astyped u).rows.find?
        (fun m => m.getD (keyIdxD (astyped u)) Val.vnull == Val.vnum q) = none := by
      rw [List.find?_eq_none]
      intro m hm
      obtain ⟨s, hs⟩ := hvstr m hm
      rw [hkeyA, hs]
      simp
    simp only [findContrib]
    cases hc : colIdx (tableContribCols (astyped u)) c with
    | some j =>
      unfold tableContrib
      rw [hfind]
      exact getD_map_const
    | none => exact ih (fun v hv => hkr v (by simp [hv])) (fun v hv => halr v (by simp [hv]))

/-- Lexicographic `≤` together with inequality gives strict lexicographic
order on the character lists. -/
theorem charsLe_lex {as bs : List Char} (h : charsLe as bs = true) (hne : as ≠ bs) :
    List.Lex (· < ·) as bs := by
  induction as generalizing bs with
  | nil =>
    cases bs with
    | nil => exact absurd rfl hne
    | cons b bs => exact List.Lex.nil
  | cons a as ih =>
    cases bs with
    | nil => simp [charsLe] at h
    | cons b bs =>
      rcases lt_trichotomy a b with hab | hab | hab
      · exact List.Lex.rel hab
      · subst hab
        have h' : charsLe as bs = true := by simpa [charsLe, lt_irrefl] using h
        have hne' : as ≠ bs := fun he => hne (by rw [he])
        exact List.Lex.cons (ih h' hne')
      · simp [charsLe, lt_asymm hab, hab] at h

/-- `strLeB` plus inequality gives the standard strict string order. -/
theorem strLeB_lt {s t : String} (h : strLeB s t = true) (hne : s ≠ t) : s < t := by
  rw [String.lt_iff_toList_lt]
  have hdata : s.data ≠ t.data := fun he => hne (by
    cases s
    cases t
    simp_all)
  exact charsLe_lex h hdata

theorem zipWith_map_forall₂_mem {α β γ δ : Type} {R : α → β → Prop} {f : α → β → γ}
    {g : γ → δ} {g' : α → δ} {l : List α} {v : List β} (h : List.Forall₂ R l v)
    (hg : ∀ a b, a ∈ l → R a b → g (f a b) = g' a) :
    (List.zipWith f l v).map g = l.map g' := by
  induction h with
  | nil => rfl
  | cons hab htail ih =>
    simp only [List.zipWith_cons_cons, List.map_cons]
    rw [hg _ _ (by simp) hab, ih (fun a b ha hr => hg a b (by simp [ha]) hr)]

theorem sortReindex_len7 (merged : Table) :
    ∀ w ∈ (sortByKey (reindex order_set merged)).rows, w.length = 7 := by
  intro w hw
  have hw' : w ∈ (reindex order_set merged).rows := (sortByKey_perm _).mem_iff.1 hw
  simp only [reindex, List.mem_map] at hw'
  obtain ⟨r, _, rfl⟩ := hw'
  simp [order_set]

/-- The number of unified rows equals the number of merged rows. -/
theorem gold_finish_length {t1 : Table} {rest : List Table} {res merged : Table}
    (hm : mergeFold t1 rest = .ok merged)
    (h : gold_finish (t1 :: rest) = some res) :
    res.rows.length = merged.rows.length := by
  rw [gold_finish_eq_some] at h
  obtain ⟨merged', vals, hm', hforall, _, hrows⟩ := gold_stages h
  rw [hm] at hm'
  injection hm' with he
  subst he
  rw [hrows, List.length_map, List.length_zipWith, ← hforall.length_eq, min_self,
    (sortByKey_perm _).length_eq]
  simp [reindex]

/-- The key cells of the unified rows are the key cells of the sorted
reindexed frame. -/
theorem keyList_gold {t1 : Table} {rest : List Table} {res merged : Table}
    (hm : mergeFold t1 rest = .ok merged)
    (h : gold_finish (t1 :: rest) = some res) :
    keyList res = (sortByKey (reindex order_set merged)).rows.map
      (fun w => w.getD 0 Val.vnull) := by
  rw [gold_finish_eq_some] at h
  obtain ⟨merged', vals, hm', hforall, hrescols, hrows⟩ := gold_stages h
  rw [hm] at hm'
  injection hm' with he
  subst he
  have hlen7 := sortReindex_len7 merged
  unfold keyList
  rw [hrows, List.map_map]
  apply zipWith_map_forall₂_mem hforall
  intro w v hwmem _
  simp only [Function.comp]
  rw [hrescols]
  simp only [getCell, show colIdx (order_set ++ ["data_status"]) key = some 0 from rfl]
  rw [List.getD_append _ _ _ _ (by rw [List.length_set, hlen7 w hwmem]; norm_num)]
  exact getD_set_ne (by norm_num)

/-- Reading a non-ratio schema column of a status-extended row. -/
theorem cell_of_statusRow {res : Table} (hrescols : res.cols = order_set ++ ["data_status"])
    {w : Row} (hw7 : w.length = 7) (v st' : Val) {c : String} {i : Nat}
    (hci : colIdx order_set c = some i) (hne6 : i ≠ 6) :
    getCell res.cols ((w.set 6 v) ++ [st']) c = w.getD i Val.vnull := by
  have hi7 : i < 7 := colIdx_lt_length hci
  rw [hrescols]
  simp only [getCell, colIdx_append_left hci]
  rw [List.getD_append _ _ _ _ (by rw [List.length_set, hw7]; exact hi7)]
  exact getD_set_ne (Ne.symm hne6)

theorem canonRow_getD {t1 : Table} {rest : List Table} {r : Row} {c : String} {i : Nat}
    (hci : colIdx order_set c = some i) :
    (order_set.map (fun c' => canonCell t1 rest r c')).getD i Val.vnull
      = canonCell t1 rest r c := by
  obtain ⟨hlt, hget⟩ := colIdx_getElem hci
  rw [getD_map_cols hlt, hget]

/-- The unified rows correspond, in both directions, to the anchor rows;
outside the derived ratio column each unified cell is the canonical
cell. -/
theorem gold_rows_canon {t1 : Table} {rest : List Table} {res : Table} {i1 : Nat}
    (hk : colIdx t1.cols key = some i1) (hal : Aligned t1)
    (hkr : ∀ u ∈ rest, (colIdx u.cols key).isSome)
    (halr : ∀ u ∈ rest, Aligned u)
    (hunq : ∀ u ∈ rest, uniqKeys u)
    (h : gold_finish (t1 :: rest) = some res) :
    (∀ r0 ∈ t1.rows, ∃ x ∈ res.rows, ∀ c ∈ order_set, c ≠ cargaCol →
        getCell res.cols x c = canonCell t1 rest r0 c) ∧
    (∀ x ∈ res.rows, ∃ r0 ∈ t1.rows, ∀ c ∈ order_set, c ≠ cargaCol →
        getCell res.cols x c = canonCell t1 rest r0 c) := by
  rw [gold_finish_eq_some] at h
  obtain ⟨merged, vals, hm, hforall, hrescols, hrows⟩ := gold_stages h
  have hbig := mergeFold_ok rest t1 hk hal hkr halr hunq
  rw [hbig] at hm
  injection hm with hm
  rw [← hm] at hforall hrows
  have hreidx := reindex_big hk hal hkr halr
  rw [hreidx] at hforall hrows
  have hperm : (sortByKey (⟨order_set,
      t1.rows.map (fun r => order_set.map (fun c => canonCell t1 rest r c))⟩ : Table)).rows.Perm
      (t1.rows.map (fun r => order_set.map (fun c => canonCell t1 rest r c))) :=
    sortByKey_perm _
  have cellgen : ∀ (r0 : Row) (v st' : Val) (c : String), c ∈ order_set → c ≠ cargaCol →
      getCell res.cols (((order_set.map (fun c' => canonCell t1 rest r0 c')).set 6 v) ++ [st']) c
        = canonCell t1 rest r0 c := by
    intro r0 v st' c hc hne
    obtain ⟨i, hci⟩ := Option.isSome_iff_exists.1 (colIdx_mem hc)
    have hne6 : i ≠ 6 := by
      intro he
      subst he
      obtain ⟨hlt, hget⟩ := colIdx_getElem hci
      apply hne
      rw [← hget]
      rfl
    rw [cell_of_statusRow hrescols (by rw [List.length_map]; rfl) v st' hci hne6]
    exact canonRow_getD hci
  constructor
  · intro r0 hr0
    have hwmem : (order_set.map (fun c => canonCell t1 rest r0 c)) ∈
        (sortByKey (⟨order_set,
          t1.rows.map (fun r => order_set.map (fun c => canonCell t1 rest r c))⟩ : Table)).rows :=
      hperm.mem_iff.2 (List.mem_map.2 ⟨r0, hr0, rfl⟩)
    obtain ⟨v, hR, hzip⟩ := zipWith_mem_of_forall₂ hforall hwmem
    have hxmem : ((order_set.map (fun c => canonCell t1 rest r0 c)).set 6 v ++
        [Val.vstr (if completeB order_set
            ((order_set.map (fun c => canonCell t1 rest r0 c)).set 6 v)
          then "complete" else "incomplete")]) ∈ res.rows := by
      rw [hrows]
      exact List.mem_map.2 ⟨_, hzip, rfl⟩
    exact ⟨_, hxmem, fun c hc hne => cellgen r0 v _ c hc hne⟩
  · intro x hx
    rw [hrows] at hx
    obtain ⟨w', hw', rfl⟩ := List.mem_map.1 hx
    obtain ⟨w, v, hwmem, hR, rfl⟩ := mem_zipWith_forall₂ hforall hw'
    obtain ⟨r0, hr0, rfl⟩ := List.mem_map.1 (hperm.mem_iff.1 hwmem)
    refine ⟨r0, hr0, ?_⟩
    intro c hc hne
    exact cellgen r0 v _ c hc hne

/-! ## Claim theorems -/

theorem process_data_none (st : List Table) (silver : Table → Option Table) :
    process_data st none silver = st := rfl

theorem process_data_some_none {b : Table} (st : List Table)
    (silver : Table → Option Table) (h : silver b = none) :
    process_data st (some b) silver = st := by
  show (match silver b with | none => st | some s => st ++ [s]) = st
  rw [h]

theorem process_data_some_some {b s : Table} (st : List Table)
    (silver : Table → Option Table) (h : silver b = some s) :
    process_data st (some b) silver = st ++ [s] := by
  show (match silver b with | none => st | some s => st ++ [s]) = st ++ [s]
  rw [h]

/-- C8: `process_data` is append-only: when fetch and transform both
succeed it appends exactly the one transformed table, and when either
fails it leaves the accumulator unchanged; in every case the accumulator
is either unchanged or extended by one table at the end. -/
theorem C8_accumulator_append_only (st : List Table) (bronze : Option Table)
    (silver : Table → Option Table) :
    (process_data st bronze silver = st ∨
      ∃ s, process_data st bronze silver = st ++ [s]) ∧
    (bronze = none → process_data st bronze silver = st) ∧
    (∀ b, bronze = some b → silver b = none → process_data st bronze silver = st) ∧
    (∀ b s, bronze = some b → silver b = some s →
      process_data st bronze silver = st ++ [s]) := by
  cases bronze with
  | none =>
    refine ⟨Or.inl (process_data_none st silver), fun _ => process_data_none st silver, ?_, ?_⟩
    · intro b hb
      cases hb
    · intro b s hb
      cases hb
  | some b =>
    cases hs : silver b with
    | none =>
      refine ⟨Or.inl (process_data_some_none st silver hs), ?_, ?_, ?_⟩
      · intro hb
        cases hb
      · intro b' hb hs'
        cases hb
        exact process_data_some_none st silver hs'
      · intro b' s' hb hs'
        cases hb
        rw [hs] at hs'
        cases hs'
    | some s =>
      refine ⟨Or.inr ⟨s, process_data_some_some st silver hs⟩, ?_, ?_, ?_⟩
      · intro hb
        cases hb
      · intro b' hb hs'
        cases hb
        rw [hs] at hs'
        cases hs'
      · intro b' s' hb hs'
        cases hb
        rw [hs] at hs'
        injection hs' with he
        subst he
        exact process_data_some_some st silver hs

/-- C8 witness: concrete success, fetch failure, and transform failure. -/
theorem C8_accumulator_append_only_witness :
    process_data [] (some wMun) (fun t => some t) = [] ++ [wMun] ∧
    process_data [wMun] none (fun t => some t) = [wMun] ∧
    process_data [wMun] (some wMun) (fun _ => none) = [wMun] :=
  ⟨(C8_accumulator_append_only [] (some wMun) (fun t => some t)).2.2.2 wMun wMun rfl rfl,
   (C8_accumulator_append_only [wMun] none (fun t => some t)).2.1 rfl,
   (C8_accumulator_append_only [wMun] (some wMun) (fun _ => none)).2.2.1 wMun rfl rfl⟩

/-- C9: a run in which every configured series fails leaves the
accumulator empty, and on an empty accumulator `main` never invokes the
finalizer (whatever it is) and produces no table and no exception. -/
theorem C9_zero_success_no_finalize
    (outcomes : List (Option Table × (Table → Option Table)))
    (f : List Table → Option Table)
    (hfail : ∀ o ∈ outcomes, o.1 = none ∨ ∀ b, o.2 b = none) :
    runSeries outcomes [] = [] ∧ main_finalize f [] = none := by
  have main : ∀ (os : List (Option Table × (Table → Option Table))),
      (∀ o ∈ os, o.1 = none ∨ ∀ b, o.2 b = none) → runSeries os [] = [] := by
    intro os
    induction os with
    | nil => intro _; rfl
    | cons o os ih =>
      intro hf
      unfold runSeries at ih ⊢
      rw [List.foldl_cons]
      have hstep : process_data [] o.1 o.2 = [] := by
        rcases hf o (by simp) with h1 | h2
        · rw [h1]
          exact process_data_none [] o.2
        · cases ho : o.1 with
          | none => exact process_data_none [] o.2
          | some b => exact process_data_some_none [] o.2 (h2 b)
      rw [hstep]
      exact ih (fun o' ho' => hf o' (by simp [ho']))
  exact ⟨main outcomes hfail, rfl⟩

/-- C9 witness: one failing series, arbitrary concrete finalizer. -/
theorem C9_zero_success_no_finalize_witness :
    runSeries [(none, fun _ => none)] [] = ([] : List Table) ∧
    main_finalize (fun _ => none) [] = none :=
  C9_zero_success_no_finalize [(none, fun _ => none)] (fun _ => none)
    (fun o ho => by
      rcases List.mem_singleton.1 ho with rfl
      exact Or.inl rfl)

/-- C4 (code bug in maybev2v1.py): on an accumulated table with no
municipality-code column the join raises; backend.py's `gold_finish`
catches this and returns `None`, but maybev2v1.py's `gold_finish` has no
`try/except` — contradicting its own docstring ("or None if an error
occurs") — and the `KeyError` propagates to the caller. -/
theorem C4_finalize_exception_propagates :
    gold_finish [wMun, cexNoKey] = none ∧
    gold_finish_maybe [wMun, cexNoKey] = .error "KeyError: CodMunIBGE" :=
  ⟨rfl, rfl⟩

theorem nn_nz_iff (v : Val) :
    (notnullB v = true ∧ neZeroB v = true) ↔ v ≠ Val.vnull ∧ v ≠ Val.vnum 0 := by
  cases v <;> simp [notnullB, neZeroB]

/-- C2 counterexample: with revenue 10 and GDP exactly 0, the derived
ratio cell is `inf` (float division by the filled zero), not 0 as the
claim states. -/
theorem C2_counterexample :
    gold_finish [cexZeroGdp] = some cexZeroGdpRes ∧
    getCell cexZeroGdpRes.cols (cexZeroGdpRes.rows.getD 0 []) pibCol = Val.vnum 0 ∧
    getCell cexZeroGdpRes.cols (cexZeroGdpRes.rows.getD 0 []) recCol = Val.vnum 10 ∧
    getCell cexZeroGdpRes.cols (cexZeroGdpRes.rows.getD 0 []) cargaCol = Val.vinf ∧
    Val.vinf ≠ Val.vnum 0 := by
  refine ⟨by decide, by decide, by decide, by decide, by decide⟩

/-- C2 (amended): in every row of the unified table the ratio cell is
exactly `Series.div(revenue, gdp, fill_value=0)` of that row's cells;
this equals `revenue/gdp` for non-null non-zero gdp (missing revenue
counting as 0), but for gdp zero-or-missing it is `inf`/`-inf`/`NaN` by
float-division semantics — never an exception. -/
theorem C2_tax_burden_ratio (ts : List Table) (res : Table)
    (h : gold_finish ts = some res) :
    (∀ x ∈ res.rows,
      divFill (getCell res.cols x recCol) (getCell res.cols x pibCol)
        = .ok (getCell res.cols x cargaCol)) ∧
    (∀ p q : ℚ, q ≠ 0 → divFill (.vnum p) (.vnum q) = .ok (.vnum (p / q))) ∧
    (∀ q : ℚ, q ≠ 0 → divFill .vnull (.vnum q) = .ok (.vnum 0)) ∧
    (∀ p : ℚ, 0 < p →
      divFill (.vnum p) (.vnum 0) = .ok .vinf ∧ divFill (.vnum p) .vnull = .ok .vinf) ∧
    (∀ p : ℚ, p < 0 →
      divFill (.vnum p) (.vnum 0) = .ok .vneginf ∧ divFill (.vnum p) .vnull = .ok .vneginf) ∧
    (divFill (.vnum 0) (.vnum 0) = .ok .vnull ∧ divFill .vnull .vnull = .ok .vnull) ∧
    (∀ a b, numOrNull a → numOrNull b → ∃ v, divFill a b = .ok v) := by
  refine ⟨fun x hx => ((gold_row_invariant h).2 x hx).1, ?_, ?_, ?_, ?_, ?_, ?_⟩
  · intro p q hq
    simp [divFill, divVals, fillZero, hq]
  · intro q hq
    simp [divFill, divVals, fillZero, hq]
  · intro p hp
    constructor <;> simp [divFill, divVals, fillZero, hp, not_lt_of_gt hp]
  · intro p hp
    constructor <;> simp [divFill, divVals, fillZero, hp, not_lt_of_gt hp, lt_irrefl]
  · constructor <;> simp [divFill, divVals, fillZero]
  · rintro a b (rfl | ⟨p, rfl⟩) (rfl | ⟨q, rfl⟩)
    · exact ⟨_, rfl⟩
    · exact ⟨_, rfl⟩
    · exact ⟨_, rfl⟩
    · exact ⟨_, rfl⟩

/-- C2 witness: a run whose only row has null revenue and GDP. -/
theorem C2_tax_burden_ratio_witness :
    gold_finish [wNull] = some wNullRes ∧
    (∀ x ∈ wNullRes.rows,
      divFill (getCell wNullRes.cols x recCol) (getCell wNullRes.cols x pibCol)
        = .ok (getCell wNullRes.cols x cargaCol)) :=
  ⟨by decide, (C2_tax_burden_ratio [wNull] wNullRes (by decide)).1⟩

/-- C3: in every row of the unified table the `data_status` flag is
`complete` exactly when human-development, GDP and revenue are all
non-null and non-zero, and `incomplete` otherwise (the flag takes no
other value). -/
theorem C3_completeness_flag (ts : List Table) (res : Table)
    (h : gold_finish ts = some res) :
    ∀ x ∈ res.rows,
      (getCell res.cols x "data_status" = .vstr "complete" ↔
        (getCell res.cols x idhmCol ≠ .vnull ∧ getCell res.cols x idhmCol ≠ .vnum 0) ∧
        (getCell res.cols x pibCol ≠ .vnull ∧ getCell res.cols x pibCol ≠ .vnum 0) ∧
        (getCell res.cols x recCol ≠ .vnull ∧ getCell res.cols x recCol ≠ .vnum 0)) ∧
      (getCell res.cols x "data_status" = .vstr "complete" ∨
        getCell res.cols x "data_status" = .vstr "incomplete") := by
  intro x hx
  have hst := ((gold_row_invariant h).2 x hx).2
  rw [hst]
  constructor
  · by_cases hc : completeB res.cols x = true
    · rw [if_pos hc]
      simp only [true_iff]
      unfold completeB at hc
      simp only [Bool.and_eq_true] at hc
      exact ⟨(nn_nz_iff _).1 hc.1, (nn_nz_iff _).1 hc.2.1, (nn_nz_iff _).1 hc.2.2⟩
    · rw [if_neg hc]
      constructor
      · intro he
        simp at he
      · intro ⟨h1, h2, h3⟩
        exfalso
        apply hc
        unfold completeB
        simp only [Bool.and_eq_true]
        exact ⟨(nn_nz_iff _).2 h1, (nn_nz_iff _).2 h2, (nn_nz_iff _).2 h3⟩
  · by_cases hc : completeB res.cols x = true
    · rw [if_pos hc]
      exact Or.inl rfl
    · rw [if_neg hc]
      exact Or.inr rfl

/-- C3 witness: a run whose only row lacks all three indicator values. -/
theorem C3_completeness_flag_witness :
    gold_finish [wMun] = some wMunRes ∧
    (∀ x ∈ wMunRes.rows,
      (getCell wMunRes.cols x "data_status" = .vstr "complete" ↔
        (getCell wMunRes.cols x idhmCol ≠ .vnull ∧ getCell wMunRes.cols x idhmCol ≠ .vnum 0) ∧
        (getCell wMunRes.cols x pibCol ≠ .vnull ∧ getCell wMunRes.cols x pibCol ≠ .vnum 0) ∧
        (getCell wMunRes.cols x recCol ≠ .vnull ∧ getCell wMunRes.cols x recCol ≠ .vnum 0)) ∧
      (getCell wMunRes.cols x "data_status" = .vstr "complete" ∨
        getCell wMunRes.cols x "data_status" = .vstr "incomplete")) :=
  ⟨by decide, C3_completeness_flag [wMun] wMunRes (by decide)⟩

/-- C1 counterexample: a non-anchor table with a duplicated municipality
code makes the left merge emit one row per matching pair, so the unified
table has 2 rows while the anchor has 1. -/
theorem C1_counterexample :
    (gold_finish [wMun, cexDupIdhm]).map (fun t => t.rows.length) = some 2 ∧
    wMun.rows.length = 1 ∧ (2 : Nat) ≠ 1 := by
  refine ⟨by decide, by decide, by decide⟩

/-- C1 (amended): provided every non-anchor table has unique (string)
municipality codes and the tables' value columns are pairwise disjoint,
the unified table has exactly as many rows as the anchor, and the whole
finalization result is identical under any permutation of the non-anchor
tables. -/
theorem C1_left_anchor_perm (t1 : Table) (rest rest' : List Table)
    (hk : (colIdx t1.cols key).isSome) (hal : Aligned t1)
    (hkr : ∀ u ∈ rest, (colIdx u.cols key).isSome)
    (halr : ∀ u ∈ rest, Aligned u)
    (hunq : ∀ u ∈ rest, uniqKeys u)
    (hdisj : rest.Pairwise contribDisjoint)
    (hperm : rest.Perm rest') :
    (∀ res, gold_finish (t1 :: rest) = some res → res.rows.length = t1.rows.length) ∧
    gold_finish (t1 :: rest') = gold_finish (t1 :: rest) := by
  obtain ⟨i1, hk1⟩ := Option.isSome_iff_exists.1 hk
  have hkr' : ∀ u ∈ rest', (colIdx u.cols key).isSome :=
    fun u hu => hkr u (hperm.mem_iff.2 hu)
  have halr' : ∀ u ∈ rest', Aligned u := fun u hu => halr u (hperm.mem_iff.2 hu)
  have hunq' : ∀ u ∈ rest', uniqKeys u := fun u hu => hunq u (hperm.mem_iff.2 hu)
  have hbig := mergeFold_ok rest t1 hk1 hal hkr halr hunq
  have hbig' := mergeFold_ok rest' t1 hk1 hal hkr' halr' hunq'
  constructor
  · intro res hres
    rw [gold_finish_length hbig hres]
    simp
  · unfold gold_finish
    congr 1
    simp only [goldBodyE, hbig, hbig']
    rw [reindex_big hk1 hal hkr halr, reindex_big hk1 hal hkr' halr']
    have hcanon : ∀ (r : Row) (c : String),
        canonCell t1 rest' r c = canonCell t1 rest r c := by
      intro r c
      unfold canonCell
      cases colIdx t1.cols c with
      | some i => rfl
      | none => exact (findContrib_perm hperm hdisj _ _).symm
    have hmapeq : (fun r => order_set.map (fun c => canonCell t1 rest' r c))
        = (fun r => order_set.map (fun c => canonCell t1 rest r c)) := by
      funext r
      exact List.map_congr_left (fun c _ => hcanon r c)
    rw [hmapeq]

/-- C1 witness: three one-row tables with distinct value columns; the two
non-anchor tables commute and the row count is the anchor's. -/
theorem C1_left_anchor_perm_witness :
    gold_finish [wMun, wPop, wIdhm] = gold_finish [wMun, wIdhm, wPop] ∧
    wC1Res.rows.length = wMun.rows.length :=
  ⟨(C1_left_anchor_perm wMun [wIdhm, wPop] [wPop, wIdhm] (by decide) (by decide)
      (by decide) (by decide) (by decide) (by decide) (by decide)).2,
   (C1_left_anchor_perm wMun [wIdhm, wPop] [wPop, wIdhm] (by decide) (by decide)
      (by decide) (by decide) (by decide) (by decide) (by decide)).1 wC1Res (by decide)⟩

theorem keyIdxD_astyped (u : Table) : keyIdxD (astyped u) = keyIdxD u := by
  unfold keyIdxD
  rw [astyped_cols]

/-- If every table that contributes the GDP column has no row keyed by
`k`, then the GDP contribution for `k` is null. -/
theorem findContrib_pib_null (rest : List Table) (k : Val)
    (habs : ∀ u ∈ rest, pibCol ∈ tableContribCols (astyped u) →
      ∀ m ∈ (astyped u).rows, m.getD (keyIdxD u) Val.vnull ≠ k) :
    findContrib rest k pibCol = Val.vnull := by
  induction rest with
  | nil => rfl
  | cons u us ih =>
    simp only [findContrib]
    cases hc : colIdx (tableContribCols (astyped u)) pibCol with
    | some j =>
      have hmem : pibCol ∈ tableContribCols (astyped u) :=
        colIdx_isSome_mem (by simp [hc])
      have hfind : (astyped u).rows.find?
          (fun m => m.getD (keyIdxD (astyped u)) Val.vnull == k) = none := by
        rw [List.find?_eq_none]
        intro m hm
        rw [keyIdxD_astyped]
        simp only [beq_iff_eq]
        exact habs u (by simp) hmem m hm
      unfold tableContrib
      rw [hfind]
      exact getD_map_const
    | none => exact ih (fun v hv => habs v (by simp [hv]))

/-- C6 counterexample: on maybev2v1.py's `gold_finish`, the population
row for code `"5938"` (absent from the GDP table) carries a null GDP and
is therefore removed by `dropna()` — the unified table has no row for
that code at all. -/
theorem C6_counterexample :
    gold_finish_maybe [wPop5938, wGdpNo5938]
      = .ok { cols := order_set, rows := ([] : List Row) } := rfl

/-- C6 (amended, holds for backend.py's `gold_finish`): a municipality
code present in the anchor but absent from every table contributing the
GDP column yields a retained row with that code, null GDP, flag
`incomplete`, and every other schema cell equal to its canonical merged
value (in particular, matched values such as population are intact). -/
theorem C6_null_gdp_row (t1 : Table) (rest : List Table) (res : Table)
    (code : String) (r0 : Row)
    (hk : (colIdx t1.cols key).isSome) (hal : Aligned t1)
    (hkr : ∀ u ∈ rest, (colIdx u.cols key).isSome)
    (halr : ∀ u ∈ rest, Aligned u)
    (hunq : ∀ u ∈ rest, uniqKeys u)
    (hr0 : r0 ∈ t1.rows)
    (hcode : r0.getD (keyIdxD t1) Val.vnull = .vstr code)
    (hpib1 : colIdx t1.cols pibCol = none)
    (habs : ∀ u ∈ rest, pibCol ∈ tableContribCols (astyped u) →
      ∀ m ∈ (astyped u).rows, m.getD (keyIdxD u) Val.vnull ≠ .vstr code)
    (h : gold_finish (t1 :: rest) = some res) :
    ∃ x ∈ res.rows,
      getCell res.cols x key = .vstr code ∧
      getCell res.cols x pibCol = .vnull ∧
      getCell res.cols x "data_status" = .vstr "incomplete" ∧
      (∀ c ∈ order_set, c ≠ cargaCol →
        getCell res.cols x c = canonCell t1 rest r0 c) := by
  obtain ⟨i1, hk1⟩ := Option.isSome_iff_exists.1 hk
  have hkid : keyIdxD t1 = i1 := by simp [keyIdxD, hk1]
  obtain ⟨x, hxmem, hcells⟩ :=
    ((gold_rows_canon hk1 hal hkr halr hunq h).1) r0 hr0
  have hpibnull : canonCell t1 rest r0 pibCol = Val.vnull := by
    unfold canonCell
    rw [hpib1, hkid, ← hkid, hcode]
    exact findContrib_pib_null rest _ habs
  have hkeycell : getCell res.cols x key = .vstr code := by
    rw [hcells key (by decide) (by decide)]
    unfold canonCell
    rw [hk1, ← hkid]
    exact hcode
  have hpibcell : getCell res.cols x pibCol = Val.vnull := by
    rw [hcells pibCol (by decide) (by decide)]
    exact hpibnull
  have hstatus := ((gold_row_invariant h).2 x hxmem).2
  refine ⟨x, hxmem, hkeycell, hpibcell, ?_, hcells⟩
  rw [hstatus]
  have hfalse : completeB res.cols x = false := by
    unfold completeB
    rw [hpibcell]
    simp [notnullB]
  rw [hfalse]
  simp

/-- C6 witness: code `"5938"` in the population anchor, absent from the
GDP table: the backend row is retained with null GDP, population 100,
flag `incomplete`. -/
theorem C6_null_gdp_row_witness :
    gold_finish [wPop5938, wGdpNo5938] = some wC6Res ∧
    (∃ x ∈ wC6Res.rows,
      getCell wC6Res.cols x key = .vstr "5938" ∧
      getCell wC6Res.cols x pibCol = .vnull ∧
      getCell wC6Res.cols x "data_status" = .vstr "incomplete" ∧
      (∀ c ∈ order_set, c ≠ cargaCol →
        getCell wC6Res.cols x c = canonCell wPop5938 [wGdpNo5938] [Val.vstr "5938", Val.vnum 100] c)) :=
  ⟨by decide,
   C6_null_gdp_row wPop5938 [wGdpNo5938] wC6Res "5938" [Val.vstr "5938", Val.vnum 100]
     (by decide) (by decide) (by decide) (by decide) (by decide) (by decide)
     (by decide) (by decide) (by decide) (by decide)⟩

/-- C7: whenever every accumulated table has unique codes (and the anchor
codes are strings), the unified table's municipality-code column is
strictly ascending in lexicographic order — so it is sorted with exactly
one row per distinct code. -/
theorem C7_sorted_unique_keys (t1 : Table) (rest : List Table) (res : Table)
    (hk : (colIdx t1.cols key).isSome) (hal : Aligned t1)
    (hkr : ∀ u ∈ rest, (colIdx u.cols key).isSome)
    (halr : ∀ u ∈ rest, Aligned u)
    (hunq : ∀ u ∈ rest, uniqKeys u)
    (hstr : ∀ r ∈ t1.rows, isStrB (r.getD (keyIdxD t1) Val.vnull) = true)
    (hnod : (t1.rows.map (fun r => r.getD (keyIdxD t1) Val.vnull)).Nodup)
    (h : gold_finish (t1 :: rest) = some res) :
    (keyList res).Pairwise vstrLt ∧ (keyList res).Nodup := by
  obtain ⟨i1, hk1⟩ := Option.isSome_iff_exists.1 hk
  have hkid : keyIdxD t1 = i1 := by simp [keyIdxD, hk1]
  rw [hkid] at hstr hnod
  have hbig := mergeFold_ok rest t1 hk1 hal hkr halr hunq
  have hkl := keyList_gold hbig h
  rw [reindex_big hk1 hal hkr halr] at hkl
  set CT : Table := ⟨order_set,
    t1.rows.map (fun r => order_set.map (fun c => canonCell t1 rest r c))⟩ with hCT
  haveI instTot : IsTotal Row (rowLe order_set) := ⟨rowLe_total order_set⟩
  haveI instTrans : IsTrans Row (rowLe order_set) :=
    ⟨fun _ _ _ => rowLe_trans order_set⟩
  have hsorted : (sortByKey CT).rows.Pairwise (rowLe order_set) :=
    List.sorted_insertionSort (rowLe order_set) CT.rows
  have hpairLe : (keyList res).Pairwise
      (fun a b => valLe a b = true) := by
    rw [hkl, List.pairwise_map]
    exact hsorted.imp (fun hab => hab)
  have heq : CT.rows.map (fun w => w.getD 0 Val.vnull)
      = t1.rows.map (fun r => r.getD i1 Val.vnull) := by
    rw [hCT]
    simp only [List.map_map]
    apply List.map_congr_left
    intro r _
    simp only [Function.comp]
    rw [canonRow_getD (show colIdx order_set key = some 0 from rfl)]
    unfold canonCell
    rw [hk1]
  have hpermK : (keyList res).Perm (t1.rows.map (fun r => r.getD i1 Val.vnull)) := by
    rw [hkl]
    have hp := (sortByKey_perm CT).map (fun w => w.getD 0 Val.vnull)
    rw [heq] at hp
    exact hp
  have hnodK : (keyList res).Nodup := hpermK.nodup_iff.2 hnod
  have hstrK : ∀ a ∈ keyList res, ∃ s, a = Val.vstr s := by
    intro a ha
    have hmem : a ∈ t1.rows.map (fun r => r.getD i1 Val.vnull) := hpermK.mem_iff.1 ha
    obtain ⟨r, hr, rfl⟩ := List.mem_map.1 hmem
    have hthis := hstr r hr
    cases hv : r.getD i1 Val.vnull with
    | vstr s => exact ⟨s, rfl⟩
    | vnum q =>
      rw [hv] at hthis
      simp [isStrB] at hthis
    | vnull =>
      rw [hv] at hthis
      simp [isStrB] at hthis
    | vinf =>
      rw [hv] at hthis
      simp [isStrB] at hthis
    | vneginf =>
      rw [hv] at hthis
      simp [isStrB] at hthis
  refine ⟨?_, hnodK⟩
  have hand := hpairLe.and hnodK
  refine List.Pairwise.imp_of_mem ?_ hand
  intro a b ha hb hab
  obtain ⟨s, rfl⟩ := hstrK a ha
  obtain ⟨t, rfl⟩ := hstrK b hb
  refine ⟨s, t, rfl, rfl, ?_⟩
  have hle : strLeB s t = true := by simpa [valLe] using hab.1
  have hne : s ≠ t := fun he => hab.2 (by rw [he])
  exact strLeB_lt hle hne

/-- C7 witness: a single-row anchor with string code. -/
theorem C7_sorted_unique_keys_witness :
    gold_finish [wMun] = some wMunRes ∧
    (keyList wMunRes).Pairwise vstrLt ∧ (keyList wMunRes).Nodup :=
  ⟨by decide,
   C7_sorted_unique_keys wMun [] wMunRes (by decide) (by decide) (by decide)
     (by decide) (by decide) (by decide) (by decide) (by decide)⟩

/-- C10: only the non-anchor key columns are coerced to string, so if
the anchor's codes are numeric they match nothing: every unified row
keeps its numeric code and every column coming only from non-anchor
tables is null. -/
theorem C10_numeric_anchor_no_match (t1 : Table) (rest : List Table) (res : Table)
    (hk : (colIdx t1.cols key).isSome) (hal : Aligned t1)
    (hkr : ∀ u ∈ rest, (colIdx u.cols key).isSome)
    (halr : ∀ u ∈ rest, Aligned u)
    (hunq : ∀ u ∈ rest, uniqKeys u)
    (hnum : ∀ r ∈ t1.rows, isNumB (r.getD (keyIdxD t1) Val.vnull) = true)
    (h : gold_finish (t1 :: rest) = some res) :
    ∀ x ∈ res.rows,
      (∃ q : ℚ, getCell res.cols x key = .vnum q) ∧
      (∀ c ∈ order_set, colIdx t1.cols c = none → c ≠ cargaCol →
        getCell res.cols x c = .vnull) := by
  obtain ⟨i1, hk1⟩ := Option.isSome_iff_exists.1 hk
  have hkid : keyIdxD t1 = i1 := by simp [keyIdxD, hk1]
  rw [hkid] at hnum
  intro x hx
  obtain ⟨r0, hr0, hcells⟩ := (gold_rows_canon hk1 hal hkr halr hunq h).2 x hx
  have hthis := hnum r0 hr0
  obtain ⟨q, hq⟩ : ∃ q, r0.getD i1 Val.vnull = Val.vnum q := by
    cases hv : r0.getD i1 Val.vnull with
    | vnum q => exact ⟨q, rfl⟩
    | vstr s =>
      rw [hv] at hthis
      simp [isNumB] at hthis
    | vnull =>
      rw [hv] at hthis
      simp [isNumB] at hthis
    | vinf =>
      rw [hv] at hthis
      simp [isNumB] at hthis
    | vneginf =>
      rw [hv] at hthis
      simp [isNumB] at hthis
  constructor
  · refine ⟨q, ?_⟩
    rw [hcells key (by decide) (by decide)]
    unfold canonCell
    rw [hk1]
    exact hq
  · intro c hc hnone hne
    rw [hcells c hc hne]
    simp only [canonCell, hnone]
    rw [hkid, hq]
    exact findContrib_num rest q c hkr halr

/-- C10 witness: numeric anchor code 1 next to a string-keyed GDP table:
the merged row keeps the numeric code and a null GDP column. -/
theorem C10_numeric_anchor_no_match_witness :
    gold_finish [wNumKey, wGdpNo5938] = some wC10Res ∧
    (∀ x ∈ wC10Res.rows,
      (∃ q : ℚ, getCell wC10Res.cols x key = .vnum q) ∧
      (∀ c ∈ order_set, colIdx wNumKey.cols c = none → c ≠ cargaCol →
        getCell wC10Res.cols x c = .vnull)) :=
  ⟨by decide,
   C10_numeric_anchor_no_match wNumKey [wGdpNo5938] wC10Res (by decide) (by decide)
     (by decide) (by decide) (by decide) (by decide) (by decide)⟩

/-- C5 (code bug in maybev2v1.py): backend.py rescales by 1000 and then
rounds to 3 decimals, exactly as the claim states (and `12.5 ↦ 12500`);
maybev2v1.py rounds *before* rescaling, which agrees at `12.5` but
diverges on values with more than 3 decimal places: at raw value
`1.2346` backend.py yields `1234.6` while maybev2v1.py yields `1235`. -/
theorem C5_gdp_rescale_round :
    (∀ v : ℚ, silver_transform_pib v = round3 (v * 1000)) ∧
    silver_transform_pib (25/2) = 12500 ∧
    silver_transform_pib_maybe (25/2) = 12500 ∧
    silver_transform_pib (12346/10000) = 12346/10 ∧
    silver_transform_pib_maybe (12346/10000) = 1235 ∧
    ((12346 : ℚ)/10 ≠ 1235) := by
  refine ⟨fun v => rfl, ?_, ?_, ?_, ?_, by norm_num⟩
  · unfold silver_transform_pib round3 roundHalfEven
    norm_num
  · unfold silver_transform_pib_maybe round3 roundHalfEven
    norm_num
  · unfold silver_transform_pib round3 roundHalfEven
    norm_num
  · unfold silver_transform_pib_maybe round3 roundHalfEven
    norm_num
